import Mathlib

/-
Verification of the package-build orchestrator in
`usr/local/lib/builder/Builder.py` (class `Builder`).

The Python code is shallowly embedded as executable Lean functions:

* File contents and names are `List Char` (Python `str`).
* The two regular expressions used by `incrementPackageVersion`
  (`re.search('(Version: )([\d\.]+\.)(\d+)', ...)` and
  `re.sub('Version: [\d\.]+', ...)`) are embedded by direct executable
  implementations of their matching semantics on these two fixed patterns
  (leftmost match, greedy with backtracking for the groups, replace-all
  scanning for `sub`).
* The orchestration methods (`doRunSteps`, `addAllPackagesToList`,
  `buildPackages`, `buildPackage`, `needToRebuildPackage`,
  `createWorkingDir`, `buildDebFile`, `removeWorkingDir`,
  `refreshAptRepository`) are embedded as explicit state-passing
  functions over a state `St`, with the external collaborators
  (filesystem, `rsync`, `find`, `dpkg-deb`) modelled at their interface
  boundary by an environment `Env` of oracles, and with Python
  exceptions (`PackageProblemOkToContinue`, `AttributeError`, fatal
  tool failures) modelled as explicit outcome values.
-/

namespace Builder

/-- Characters matched by the character class `[\d\.]` appearing in both
regular expressions of `incrementPackageVersion`: a decimal digit or a dot. -/
def isVChar (c : Char) : Bool := c.isDigit || c = '.'

/-- The nine literal characters `Version: ` (with one trailing space) that
both regular expressions begin with. -/
def versionLit : List Char := ['V', 'e', 'r', 's', 'i', 'o', 'n', ':', ' ']

/-- `litMatch pat l` holds when the literal `pat` occurs at the head of `l`. -/
def litMatch : List Char → List Char → Bool
  | [], _ => true
  | _ :: _, [] => false
  | a :: as, b :: bs => a == b && litMatch as bs

/-- Length of the match of the `re.sub` pattern `Version: [\d\.]+` at the
head of `l`, if any: the nine literal characters followed by the maximal
nonempty run of digits and dots (`+` is greedy, and `re.sub` uses the
greedy match as is). -/
def subMatch (l : List Char) : Option Nat :=
  if litMatch versionLit l then
    if ((l.drop 9).takeWhile isVChar).length = 0 then none
    else some (9 + ((l.drop 9).takeWhile isVChar).length)
  else none

/-- Fuel-indexed worker for `subAll`.  Python `re.sub` scans the input left
to right; at each position it tries the pattern, on a match it emits the
replacement and resumes after the matched span, otherwise it emits the
current character and advances by one. -/
def subAllF (repl : List Char) : Nat → List Char → List Char
  | 0, l => l
  | _ + 1, [] => []
  | f + 1, c :: cs =>
    match subMatch (c :: cs) with
    | some n => repl ++ subAllF repl f ((c :: cs).drop n)
    | none => c :: subAllF repl f cs

/-- `re.sub('Version: [\d\.]+', repl, l)` with a replacement string that
contains no backreferences (the replacement built by
`incrementPackageVersion` consists of digits, dots and the literal). -/
def subAll (repl l : List Char) : List Char := subAllF repl l.length l

/-- Whether greedy backtracking of `([\d\.]+\.)(\d+)` matched against `run`
can place the end of group 2 at offset `j`: group 2 (`[\d\.]+\.`) is then at
least two characters long and ends with a dot, and a digit follows for
group 3 (`\d+`). -/
def okSplit (run : List Char) (j : Nat) : Bool :=
  decide (2 ≤ j) &&
    match run.drop (j - 1) with
    | c :: d :: _ => c == '.' && d.isDigit
    | _ => false

/-- Try split points from `k` downward: the greedy `[\d\.]+` inside group 2
tries the longest possibility first and backtracks one character at a time. -/
def findJFrom (run : List Char) : Nat → Option Nat
  | 0 => none
  | k + 1 => if okSplit run (k + 1) then some (k + 1) else findJFrom run k

/-- Split point chosen by the regex engine for `([\d\.]+\.)(\d+)` against
the maximal `[\d\.]` run `run`, if a match exists. -/
def findJ (run : List Char) : Option Nat := findJFrom run run.length

/-- Match of the `re.search` pattern `(Version: )([\d\.]+\.)(\d+)` at the
head of `l`, returning `(group 2, group 3)` (group 1 is always the literal
`Version: `). -/
def searchAt (l : List Char) : Option (List Char × List Char) :=
  if litMatch versionLit l then
    match findJ ((l.drop 9).takeWhile isVChar) with
    | some j =>
      some (((l.drop 9).takeWhile isVChar).take j,
        ((((l.drop 9).takeWhile isVChar)).drop j).takeWhile Char.isDigit)
    | none => none
  else none

/-- `re.search('(Version: )([\d\.]+\.)(\d+)', l)`: the leftmost position at
which the pattern matches, scanning left to right. -/
def search : List Char → Option (List Char × List Char)
  | [] => none
  | c :: cs =>
    match searchAt (c :: cs) with
    | some g => some g
    | none => search cs

/-- Character for the decimal digit `n` (`n < 10`). -/
def digitChar (n : Nat) : Char := Char.ofNat (48 + n)

/-- Fuel-indexed worker for `natDigits`. -/
def natDigitsF : Nat → Nat → List Char
  | 0, _ => []
  | f + 1, n =>
    if n < 10 then [digitChar n]
    else natDigitsF f (n / 10) ++ [digitChar (n % 10)]

/-- Decimal representation of `n`, Python `(n).__str__()`. -/
def natDigits (n : Nat) : List Char := natDigitsF (n + 1) n

/-- Python `int` applied to a string of decimal digits. -/
def parseNat (l : List Char) : Nat := l.foldl (fun a c => a * 10 + (c.toNat - 48)) 0

/-- No occurrence of the `re.sub` pattern starts at any of the first
`P.length` positions of `P ++ rest`. -/
def noMatchWithin : List Char → List Char → Bool
  | [], _ => true
  | c :: ps, rest => (subMatch (c :: (ps ++ rest))).isNone && noMatchWithin ps rest

/-- The first character of `l`, if any, is not a digit or a dot, so a
`[\d\.]` run cannot extend into `l`. -/
def headNotV : List Char → Bool
  | [] => true
  | c :: _ => !isVChar c

/-- Pure text-transformation core of `incrementPackageVersion`: given the
control-file contents it returns
`(currentVersion, nextVersion, contentWithNextMinorVersion)`.
`none` models the uncaught `AttributeError` that
`currentVersionMatch.group(2)` raises when `re.search` returned `None`. -/
def bump (content : List Char) : Option (List Char × List Char × List Char) :=
  match search content with
  | none => none
  | some (g2, g3) =>
    let next := g2 ++ natDigits (parseNat g3 + 1)
    some (g2 ++ g3, next, subAll (versionLit ++ next) content)

/-- Reversed-name test for a match of the pattern `.deb$` at the very end
of the name: in the pattern, `.` is a wildcard for any character except a
newline, so the match is a four-character suffix `<any char>deb`. -/
def debTail : List Char → Bool
  | b :: e2 :: d2 :: c :: _ => b = 'b' && e2 = 'e' && d2 = 'd' && !(c = '\n')
  | _ => false

/-- Reversed-name test for a match of `.deb` just before a final newline
(`$` also matches there, and `.` never matches a newline). -/
def debTailNl : List Char → Bool
  | n :: b :: e2 :: d2 :: c :: _ =>
    n = '\n' && b = 'b' && e2 = 'e' && d2 = 'd' && !(c = '\n')
  | _ => false

/-- The name actually built: `re.sub('.deb$', '', package)` applied by the
loop in `buildPackages`.  `$` matches at the end of the string or just
before one final newline, so the substitution removes the four characters
`<any char>deb` from either position. -/
def stripDeb (name : List Char) : List Char :=
  if debTail name.reverse then (name.reverse.drop 4).reverse
  else if debTailNl name.reverse then ('\n' :: name.reverse.drop 5).reverse
  else name

/-- Strict lexicographic comparison of characters by code point. -/
def charLt (a b : Char) : Bool := decide (a.toNat < b.toNat)

/-- Strict lexicographic comparison of names by code point, the order
Python `list.sort()` uses on `str`. -/
def nameLt : List Char → List Char → Bool
  | [], [] => false
  | [], _ :: _ => true
  | _ :: _, [] => false
  | a :: as, b :: bs => if a = b then nameLt as bs else charLt a b

/-- Insert into a sorted list of names. -/
def insertName (x : List Char) : List (List Char) → List (List Char)
  | [] => [x]
  | y :: ys => if nameLt x y then x :: y :: ys else y :: insertName x ys

/-- Model of `packages.sort()` in `addAllPackagesToList`.  Directory
entries are distinct, so any correct ascending sort produces the same
list Python's sort does. -/
def sortNames : List (List Char) → List (List Char)
  | [] => []
  | x :: xs => insertName x (sortNames xs)

/-- The fixed names of `packageFilesToRemoveBeforeBuilding` other than the
glob pattern `*.pyc`. -/
def fixedRemoveNames : List (List Char) :=
  [".svn".toList, ".cache".toList, ".project".toList, ".pydevproject".toList,
   ".DEBUG".toList, ".git".toList, "README.md".toList]

/-- Does `n` end with the four characters `.pyc` (the glob `*.pyc`)? -/
def endsWithPyc (n : List Char) : Bool :=
  litMatch ['c', 'y', 'p', '.'] n.reverse

/-- Whether one path component matches some entry of
`packageFilesToRemoveBeforeBuilding` (`find -name <entry>` matches the
basename of each visited entry). -/
def excludedName (n : List Char) : Bool :=
  fixedRemoveNames.contains n || endsWithPyc n

/-- Whether the `find ... -name <pattern> -exec rm -rf` passes of
`createWorkingDir` delete the file at `path` (components, root first):
`rm -rf` on a matching directory removes the whole subtree, so a file is
deleted exactly when some component of its path matches a pattern. -/
def excludedPath (path : List (List Char)) : Bool := path.any excludedName

/-- Observable events of one orchestration pass. -/
inductive Ev where
  /-- `needToRebuildPackage` was invoked for `p` (the staleness query). -/
  | staleQuery (p : List Char)
  /-- The loop in `buildPackages` started building `p` (after the
  `re.sub('.deb$', '', package)` rewrite). -/
  | buildStart (p : List Char)
  /-- `buildPackage p` ran to its end with the artifact created. -/
  | built (p : List Char)
  /-- `refreshAptRepository` regenerated the repository metadata. -/
  | refreshIndex
deriving DecidableEq

/-- Read-only environment: configuration plus oracles for the external
collaborators (`listdir`, `isdir`, the `find -newer` query, the package
source trees copied by `rsync`, and whether `dpkg-deb` fails). -/
structure Env where
  /-- `listdir(self.config['codeSourceDir'])`. -/
  listing : List (List Char)
  /-- `isdir(codeSourceDir + '/' + package)`. -/
  isDir : List Char → Bool
  /-- Entries below the package's source dir as seen by `find`:
  `(is-directory, mtime)` pairs. -/
  sourceEntries : List Char → List (Bool × Nat)
  /-- Modification time of the package's existing `.deb` file. -/
  debMtime : List Char → Nat
  /-- Regular files of the package's source tree copied by `rsync -a`:
  `(path components, content)` pairs. -/
  sourceFiles : List Char → List (List (List Char) × Nat)
  /-- Whether the `dpkg-deb --build` invocation for this package fails. -/
  debBuildFails : List Char → Bool

/-- Mutable world state threaded through the orchestration: the
class-level `Builder.packageList`, the control files, the shared working
directory, the built artifacts, the repository index, and the event
trace. -/
structure St where
  /-- The class attribute `packageList` (process-wide shared list). -/
  packageList : List (List Char)
  /-- Contents of `DEBIAN/control` per package; `none` when the control
  file does not exist. -/
  control : List Char → Option (List Char)
  /-- The shared staging directory `debsDir/.workingDir`; `none` when it
  does not exist. -/
  workingDir : Option (List (List (List Char) × Nat))
  /-- Whether `debsDir/<package>.deb` exists. -/
  deb : List Char → Bool
  /-- Whether the repository metadata was rewritten this pass. -/
  indexRefreshed : Bool
  /-- Trace of observable events, oldest first. -/
  events : List Ev

/-- Parsed command-line arguments `--all` and `--package`. -/
structure Args where
  all : Bool
  package : Option (List Char)

/-- Result of one step that can raise an exception. -/
inductive StepRes where
  /-- Normal return. -/
  | ok
  /-- `raise PackageProblemOkToContinue` (caught in `buildPackage`). -/
  | skipRaise
  /-- An exception no handler catches (`AttributeError`, or a fatal
  external-tool failure surfaced by `runCommand`). -/
  | fatalRaise
deriving DecidableEq

/-- Terminal state of one package's build. -/
inductive BOutcome where
  /-- The artifact was created and the working dir removed. -/
  | builtOk
  /-- `PackageProblemOkToContinue` was caught; the package was skipped. -/
  | skipped
  /-- An uncaught exception aborts the whole run. -/
  | fatal
deriving DecidableEq

/-- `needToRebuildPackage`: `True` when the `.deb` file does not exist,
otherwise the result of `find <sourceDir> -type f -newer <debFile>`
produced at least one line (a regular file strictly newer than the
artifact). -/
def needToRebuildPackage (env : Env) (p : List Char) (st : St) : Bool × St :=
  let st := { st with events := st.events ++ [Ev.staleQuery p] }
  if st.deb p then
    (((env.sourceEntries p).any fun e => !e.1 && decide (env.debMtime p < e.2)), st)
  else
    (true, st)

/-- Loop body of `addAllPackagesToList`: `if force or needToRebuildPackage`
(Python `or` short-circuits, so `force` suppresses the staleness query),
then append when the source path is a directory and the control file
exists. -/
def addOnePackage (env : Env) (force : Bool) (st : St) (p : List Char) : St :=
  match (if force then (true, st) else needToRebuildPackage env p st) with
  | (true, st1) =>
    if env.isDir p && (st1.control p).isSome then
      { st1 with packageList := st1.packageList ++ [p] }
    else st1
  | (false, st1) => st1

/-- `addAllPackagesToList(force)`: list the source root, sort, and filter. -/
def addAllPackagesToList (env : Env) (force : Bool) (st : St) : St :=
  (sortNames env.listing).foldl (addOnePackage env force) st

/-- `incrementPackageVersion`: raises `PackageProblemOkToContinue` when the
control file is missing; raises an uncaught `AttributeError` when the file
exists but `re.search` finds no version line (the file is not written in
either case); otherwise durably rewrites the control file. -/
def incrementPackageVersion (p : List Char) (st : St) : St × StepRes :=
  match st.control p with
  | none => (st, StepRes.skipRaise)
  | some content =>
    match bump content with
    | none => (st, StepRes.fatalRaise)
    | some (_, _, newContent) =>
      ({ st with control := fun q => if q = p then some newContent else st.control q },
       StepRes.ok)

/-- Merge of `rsync -a <src>/ <dst>/` without `--delete`: every source file
is copied (overwriting a colliding destination path), and destination
entries at other paths are left in place. -/
def overrideFiles (src pre : List (List (List Char) × Nat)) :
    List (List (List Char) × Nat) :=
  src ++ pre.filter fun e => !(src.any fun s2 => s2.1 == e.1)

/-- `createWorkingDir`: `rsync -a` the package source over whatever is at
the working-dir path (creating it when absent), then run the
`find -name ... -exec rm -rf` passes for every exclusion pattern. -/
def createWorkingDir (env : Env) (p : List Char) (st : St) : St :=
  let pre := st.workingDir.getD []
  let merged := overrideFiles (env.sourceFiles p) pre
  { st with workingDir := some (merged.filter fun e => !excludedPath e.1) }

/-- `buildDebFile`: `rm -f` the old artifact, then `dpkg-deb --build`; a
tool failure propagates as fatal.  Returns `true` on success. -/
def buildDebFile (env : Env) (p : List Char) (st : St) : St × Bool :=
  let st := { st with deb := fun q => if q = p then false else st.deb q }
  if env.debBuildFails p then (st, false)
  else ({ st with deb := fun q => if q = p then true else st.deb q }, true)

/-- `removeWorkingDir`: `rm -rf` the working directory. -/
def removeWorkingDir (st : St) : St := { st with workingDir := none }

/-- `buildPackage`: the four per-package steps inside
`try ... except PackageProblemOkToContinue`.  Only `skipRaise` is caught;
`removeWorkingDir` runs only when `buildDebFile` returned normally. -/
def buildPackage (env : Env) (p : List Char) (st : St) : St × BOutcome :=
  match incrementPackageVersion p st with
  | (st, StepRes.skipRaise) => (st, BOutcome.skipped)
  | (st, StepRes.fatalRaise) => (st, BOutcome.fatal)
  | (st, StepRes.ok) =>
    let st := createWorkingDir env p st
    match buildDebFile env p st with
    | (st, false) => (st, BOutcome.fatal)
    | (st, true) =>
      let st := removeWorkingDir st
      ({ st with events := st.events ++ [Ev.built p] }, BOutcome.builtOk)

/-- Loop of `buildPackages` over a list of names; the second component is
`true` when the loop completed without an uncaught exception. -/
def buildPackagesGo (env : Env) : List (List Char) → St → St × Bool
  | [], st => (st, true)
  | p :: rest, st =>
    let p2 := stripDeb p
    let r := buildPackage env p2 { st with events := st.events ++ [Ev.buildStart p2] }
    if r.2 = BOutcome.fatal then (r.1, false) else buildPackagesGo env rest r.1

/-- `buildPackages`: iterate over `self.packageList`, rewriting each name
with `re.sub('.deb$', '', package)` first. -/
def buildPackages (env : Env) (st : St) : St × Bool :=
  buildPackagesGo env st.packageList st

/-- `refreshAptRepository`: regenerate and compress the repository
metadata unless `len(self.packageList) == 0`. -/
def refreshAptRepository (st : St) : St :=
  if st.packageList.length = 0 then st
  else { st with indexRefreshed := true, events := st.events ++ [Ev.refreshIndex] }

/-- The selection part of `doRunSteps`: `--all` wins, else a non-empty
`--package` value is appended verbatim (Python truthiness: an empty string
falls through to the default branch), else the changed-only scan. -/
def selectPackages (env : Env) (args : Args) (st : St) : St :=
  if args.all then addAllPackagesToList env true st
  else
    match args.package with
    | some p =>
      if p.isEmpty then addAllPackagesToList env false st
      else { st with packageList := st.packageList ++ [p] }
    | none => addAllPackagesToList env false st

/-- `doRunSteps`: select, build, then refresh the repository metadata; an
uncaught exception from the build loop aborts before the refresh. -/
def doRunSteps (env : Env) (args : Args) (st : St) : St × Bool :=
  match buildPackages env (selectPackages env args st) with
  | (st2, false) => (st2, false)
  | (st2, true) => (refreshAptRepository st2, true)

/-- The `buildStart` events of a trace, in order. -/
def buildStartsOf (evs : List Ev) : List (List Char) :=
  evs.filterMap fun e =>
    match e with
    | Ev.buildStart p => some p
    | _ => none

/-- The `staleQuery` events of a trace, in order. -/
def staleQueriesOf (evs : List Ev) : List (List Char) :=
  evs.filterMap fun e =>
    match e with
    | Ev.staleQuery p => some p
    | _ => none

/-- The `built` events of a trace, in order: the packages whose build ran
to completion. -/
def builtOf (evs : List Ev) : List (List Char) :=
  evs.filterMap fun e =>
    match e with
    | Ev.built p => some p
    | _ => none

/-- A source root with two buildable packages `a` and `b`; `a`'s control
file exists but contains no version line, `b`'s is well formed.  No `.deb`
artifacts exist yet, so the default changed-only scan selects both. -/
def c1Env : Env where
  listing := ["a".toList, "b".toList]
  isDir := fun _ => true
  sourceEntries := fun _ => []
  debMtime := fun _ => 0
  sourceFiles := fun _ => []
  debBuildFails := fun _ => false

/-- Initial state for the malformed-version run. -/
def c1St : St where
  packageList := []
  control := fun q =>
    if q = "a".toList then some "Package: a\n".toList
    else if q = "b".toList then some "Version: 1.0.0\n".toList
    else none
  workingDir := none
  deb := fun _ => false
  indexRefreshed := false
  events := []

/-- An empty source root; used with an explicit `--package a` whose control
file is missing, the one recoverable per-package failure. -/
def c2Env : Env where
  listing := []
  isDir := fun _ => false
  sourceEntries := fun _ => []
  debMtime := fun _ => 0
  sourceFiles := fun _ => []
  debBuildFails := fun _ => false

/-- Initial state with no control files at all. -/
def c2St : St where
  packageList := []
  control := fun _ => none
  workingDir := none
  deb := fun _ => false
  indexRefreshed := false
  events := []

/-- A package `a` with a well-formed control file whose `dpkg-deb`
invocation fails. -/
def c3Env : Env where
  listing := []
  isDir := fun _ => true
  sourceEntries := fun _ => []
  debMtime := fun _ => 0
  sourceFiles := fun _ => [(["f".toList], 1)]
  debBuildFails := fun _ => true

/-- Initial state for the failing-packaging run: only `a` has a control
file, and it is well formed. -/
def c3St : St where
  packageList := []
  control := fun q =>
    if q = "a".toList then some "Version: 1.0.0\n".toList else none
  workingDir := none
  deb := fun _ => false
  indexRefreshed := false
  events := []

/-- Like the failing-packaging scenario but with a `dpkg-deb` that
succeeds: used to exercise the success path of the per-package build. -/
def c3WEnv : Env where
  listing := []
  isDir := fun _ => true
  sourceEntries := fun _ => []
  debMtime := fun _ => 0
  sourceFiles := fun _ => [(["f".toList], 1)]
  debBuildFails := fun _ => false

/-- A package whose source tree holds the single file `main.py`. -/
def c4Env : Env where
  listing := []
  isDir := fun _ => true
  sourceEntries := fun _ => []
  debMtime := fun _ => 0
  sourceFiles := fun _ => [(["main.py".toList], 1)]
  debBuildFails := fun _ => false

/-- State in which the staging path still holds `stale.txt`, left over
from an interrupted earlier run; `stale.txt` matches no exclusion
pattern and does not occur in the current package's source tree. -/
def c4St : St where
  packageList := []
  control := fun _ => some "Version: 1.0.0\n".toList
  workingDir := some [(["stale.txt".toList], 7)]
  deb := fun _ => false
  indexRefreshed := false
  events := []

/-- An empty environment for the explicit-package selection runs. -/
def c8Env : Env where
  listing := []
  isDir := fun _ => false
  sourceEntries := fun _ => []
  debMtime := fun _ => 0
  sourceFiles := fun _ => []
  debBuildFails := fun _ => false

/-- Initial state for the explicit-package selection runs. -/
def c8St : St where
  packageList := []
  control := fun _ => none
  workingDir := none
  deb := fun _ => false
  indexRefreshed := false
  events := []

/-- C1.  The claim says a control file without a version line makes the
per-package build fail recoverably (package skipped, file unmutated, loop
continues).  The code instead calls `.group(2)` on the `None` returned by
`re.search`, raising an `AttributeError` that the
`except PackageProblemOkToContinue` handler does not catch: the run
aborts, package `b` is never built and the repository metadata refresh
never happens.  Only the no-mutation part of the claim holds.  This
theorem evaluates the embedded pipeline at the failing input. -/
theorem c1_malformed_version_crashes_run :
    (doRunSteps c1Env ⟨false, none⟩ c1St).2 = false ∧
    (doRunSteps c1Env ⟨false, none⟩ c1St).1.control "a".toList =
      some "Package: a\n".toList ∧
    buildStartsOf (doRunSteps c1Env ⟨false, none⟩ c1St).1.events = ["a".toList] ∧
    (doRunSteps c1Env ⟨false, none⟩ c1St).1.deb "b".toList = false ∧
    (doRunSteps c1Env ⟨false, none⟩ c1St).1.indexRefreshed = false := by
  decide

/-- C2, counterexample.  A pass whose only selected package is skipped
(explicit `--package a` with a missing control file) builds nothing, yet
`refreshAptRepository` tests `len(self.packageList)` — the selected list,
which still holds `a` — and rewrites the repository metadata, contradicting
the claim that a zero-build pass leaves the index untouched. -/
theorem c2_counterexample :
    (doRunSteps c2Env ⟨false, some "a".toList⟩ c2St).2 = true ∧
    builtOf (doRunSteps c2Env ⟨false, some "a".toList⟩ c2St).1.events = [] ∧
    (doRunSteps c2Env ⟨false, some "a".toList⟩ c2St).1.indexRefreshed = true := by
  decide

/-- C3, counterexample.  When `dpkg-deb` fails for package `a`, the fatal
error propagates out of `buildPackage` before `removeWorkingDir` runs
(there is no `finally:`), so the staging directory still exists at the end
of the package's build step, contradicting the claim that it is torn down
on every exit path. -/
theorem c3_counterexample :
    (doRunSteps c3Env ⟨false, some "a".toList⟩ c3St).2 = false ∧
    (doRunSteps c3Env ⟨false, some "a".toList⟩ c3St).1.workingDir.isSome = true := by
  decide

/-- C4, counterexample.  `createWorkingDir` copies with `rsync -a` and no
`--delete`: the pre-existing staging file `stale.txt` collides with no
source path and matches no exclusion pattern, so it survives into the
staged tree, which therefore is not exactly the sanitized copy of the
current package's source tree. -/
theorem c4_counterexample :
    (createWorkingDir c4Env "a".toList c4St).workingDir =
      some [(["main.py".toList], 1), (["stale.txt".toList], 7)] ∧
    [(["main.py".toList], 1), (["stale.txt".toList], 7)] ≠
      (c4Env.sourceFiles "a".toList).filter (fun e => !excludedPath e.1) := by
  decide

/-- C5, counterexample.  `re.sub('Version: [\d\.]+', ...)` replaces every
occurrence, not only the matched `Version:` line: on a control file whose
second line `XVersion: 7.8` embeds a second occurrence, the bump rewrites
that line too, so bytes outside the `Version:` line differ from the
input. -/
theorem c5_counterexample :
    bump "Version: 1.2.3\nXVersion: 7.8\n".toList =
      some ("1.2.3".toList, "1.2.4".toList,
        "Version: 1.2.4\nXVersion: 1.2.4\n".toList) ∧
    "Version: 1.2.4\nXVersion: 1.2.4\n".toList ≠
      "Version: 1.2.4\nXVersion: 7.8\n".toList := by
  decide

/-- C8, counterexample.  An explicit `--package foo.deb` run does not
build the package exactly as selected: the loop in `buildPackages` first
rewrites the name with `re.sub('.deb$', '', package)`, so the processed
package is `foo`, not `foo.deb`. -/
theorem c8_counterexample :
    buildStartsOf (doRunSteps c8Env ⟨false, some "foo.deb".toList⟩ c8St).1.events =
      ["foo".toList] ∧
    "foo.deb".toList ∉
      buildStartsOf (doRunSteps c8Env ⟨false, some "foo.deb".toList⟩ c8St).1.events := by
  decide

/-- C7.  `needToRebuildPackage` returns `True` when the artifact does not
exist, and otherwise returns `True` exactly when some regular file (a
non-directory entry found by `find -type f`) below the package's source
directory has a modification time strictly newer than the artifact's. -/
theorem c7_staleness (env : Env) (p : List Char) (st : St) :
    (needToRebuildPackage env p st).1 = true ↔
      (st.deb p = false ∨
        ∃ e ∈ env.sourceEntries p, e.1 = false ∧ env.debMtime p < e.2) := by
  unfold needToRebuildPackage
  cases h : st.deb p with
  | false => simp [h]
  | true =>
    simp [h, List.any_eq_true, Bool.and_eq_true, Bool.not_eq_true',
      decide_eq_true_iff]

/-- `incrementPackageVersion` touches only the control-file map. -/
theorem incrementPackageVersion_fields (p : List Char) (st : St) :
    ((incrementPackageVersion p st).1).packageList = st.packageList ∧
    ((incrementPackageVersion p st).1).workingDir = st.workingDir ∧
    ((incrementPackageVersion p st).1).indexRefreshed = st.indexRefreshed ∧
    ((incrementPackageVersion p st).1).events = st.events := by
  unfold incrementPackageVersion
  split
  · exact ⟨rfl, rfl, rfl, rfl⟩
  · split
    · exact ⟨rfl, rfl, rfl, rfl⟩
    · exact ⟨rfl, rfl, rfl, rfl⟩

/-- `createWorkingDir` touches only the working directory. -/
theorem createWorkingDir_fields (env : Env) (p : List Char) (st : St) :
    (createWorkingDir env p st).packageList = st.packageList ∧
    (createWorkingDir env p st).indexRefreshed = st.indexRefreshed ∧
    (createWorkingDir env p st).events = st.events :=
  ⟨rfl, rfl, rfl⟩

/-- `buildDebFile` touches only the artifact map. -/
theorem buildDebFile_fields (env : Env) (p : List Char) (st : St) :
    ((buildDebFile env p st).1).packageList = st.packageList ∧
    ((buildDebFile env p st).1).workingDir = st.workingDir ∧
    ((buildDebFile env p st).1).indexRefreshed = st.indexRefreshed ∧
    ((buildDebFile env p st).1).events = st.events := by
  unfold buildDebFile
  by_cases h : env.debBuildFails p = true <;> simp [h]

/-- A build of one package leaves the selected list and the index flag
alone, and appends at most a `built` event to the trace. -/
theorem buildPackage_fields (env : Env) (p : List Char) (st : St) :
    ((buildPackage env p st).1).packageList = st.packageList ∧
    ((buildPackage env p st).1).indexRefreshed = st.indexRefreshed ∧
    ∃ t, ((buildPackage env p st).1).events = st.events ++ t ∧
      ∀ e ∈ t, e = Ev.built p := by
  unfold buildPackage
  cases hc : incrementPackageVersion p st with
  | mk st1 res =>
    have h1 := incrementPackageVersion_fields p st
    rw [hc] at h1
    have hp1 : st1.packageList = st.packageList := h1.1
    have hi1 : st1.indexRefreshed = st.indexRefreshed := h1.2.2.1
    have he1 : st1.events = st.events := h1.2.2.2
    cases res with
    | skipRaise => exact ⟨hp1, hi1, [], by simp [he1], by simp⟩
    | fatalRaise => exact ⟨hp1, hi1, [], by simp [he1], by simp⟩
    | ok =>
      obtain ⟨hp2, hi2, he2⟩ := createWorkingDir_fields env p st1
      cases hb : buildDebFile env p (createWorkingDir env p st1) with
      | mk st2 ok2 =>
        have h3 := buildDebFile_fields env p (createWorkingDir env p st1)
        rw [hb] at h3
        have hp3 : st2.packageList = (createWorkingDir env p st1).packageList := h3.1
        have hi3 : st2.indexRefreshed = (createWorkingDir env p st1).indexRefreshed :=
          h3.2.2.1
        have he3 : st2.events = (createWorkingDir env p st1).events := h3.2.2.2
        cases ok2 with
        | false =>
          simp only [hb]
          refine ⟨by simp [hp3, hp2, hp1], by simp [hi3, hi2, hi1], [], ?_, by simp⟩
          simp [he3, he2, he1]
        | true =>
          simp only [hb]
          refine ⟨by simp [removeWorkingDir, hp3, hp2, hp1],
            by simp [removeWorkingDir, hi3, hi2, hi1], [Ev.built p], ?_, by simp⟩
          simp [removeWorkingDir, he3, he2, he1]

/-- The build loop leaves the selected list and the index flag alone. -/
theorem buildPackagesGo_fields (env : Env) (l : List (List Char)) (st : St) :
    ((buildPackagesGo env l st).1).packageList = st.packageList ∧
    ((buildPackagesGo env l st).1).indexRefreshed = st.indexRefreshed := by
  induction l generalizing st with
  | nil => exact ⟨rfl, rfl⟩
  | cons p rest ih =>
    cases hb : buildPackage env (stripDeb p)
        { st with events := st.events ++ [Ev.buildStart (stripDeb p)] } with
    | mk st2 oc =>
      have h2 := buildPackage_fields env (stripDeb p)
        { st with events := st.events ++ [Ev.buildStart (stripDeb p)] }
      rw [hb] at h2
      have hp2 : st2.packageList = st.packageList := h2.1
      have hi2 : st2.indexRefreshed = st.indexRefreshed := h2.2.1
      cases oc with
      | fatal =>
        unfold buildPackagesGo
        simp only [hb]
        exact ⟨hp2, hi2⟩
      | builtOk =>
        unfold buildPackagesGo
        simp only [hb]
        obtain ⟨hp, hi⟩ := ih st2
        exact ⟨hp.trans hp2, hi.trans hi2⟩
      | skipped =>
        unfold buildPackagesGo
        simp only [hb]
        obtain ⟨hp, hi⟩ := ih st2
        exact ⟨hp.trans hp2, hi.trans hi2⟩

/-- `refreshAptRepository` never changes the selected list. -/
theorem refreshAptRepository_packageList (st : St) :
    (refreshAptRepository st).packageList = st.packageList := by
  unfold refreshAptRepository
  split <;> rfl

/-- The staleness query only appends an event to the trace. -/
theorem needToRebuildPackage_fields (env : Env) (p : List Char) (st : St) :
    ((needToRebuildPackage env p st).2).packageList = st.packageList ∧
    ((needToRebuildPackage env p st).2).indexRefreshed = st.indexRefreshed := by
  by_cases h : st.deb p = true <;> simp [needToRebuildPackage, h]

/-- One iteration of the selection scan only appends to the selected
list and leaves the index flag alone. -/
theorem addOnePackage_fields (env : Env) (force : Bool) (st : St) (p : List Char) :
    (∃ t, (addOnePackage env force st p).packageList = st.packageList ++ t) ∧
    (addOnePackage env force st p).indexRefreshed = st.indexRefreshed := by
  unfold addOnePackage
  cases hr : (if force then (true, st) else needToRebuildPackage env p st) with
  | mk need st1 =>
    have hfield : st1.packageList = st.packageList ∧
        st1.indexRefreshed = st.indexRefreshed := by
      cases force with
      | true =>
        rw [if_pos rfl] at hr
        rw [Prod.mk.injEq] at hr
        rw [← hr.2]
        exact ⟨rfl, rfl⟩
      | false =>
        rw [if_neg (fun h => Bool.noConfusion h)] at hr
        have h2 := needToRebuildPackage_fields env p st
        rw [hr] at h2
        exact h2
    cases need with
    | true =>
      show (∃ t, (if (env.isDir p && (st1.control p).isSome) = true then
            { st1 with packageList := st1.packageList ++ [p] }
          else st1).packageList = st.packageList ++ t) ∧
        (if (env.isDir p && (st1.control p).isSome) = true then
            { st1 with packageList := st1.packageList ++ [p] }
          else st1).indexRefreshed = st.indexRefreshed
      by_cases hc : (env.isDir p && (st1.control p).isSome) = true
      · rw [if_pos hc]
        exact ⟨⟨[p], by rw [hfield.1]⟩, hfield.2⟩
      · rw [if_neg hc]
        exact ⟨⟨[], by simp [hfield.1]⟩, hfield.2⟩
    | false => exact ⟨⟨[], by simp [hfield.1]⟩, hfield.2⟩

/-- The selection scan only appends to the selected list and leaves the
index flag alone. -/
theorem foldl_addOnePackage_fields (env : Env) (force : Bool)
    (l : List (List Char)) (st : St) :
    (∃ t, (l.foldl (addOnePackage env force) st).packageList = st.packageList ++ t) ∧
    (l.foldl (addOnePackage env force) st).indexRefreshed = st.indexRefreshed := by
  induction l generalizing st with
  | nil => exact ⟨⟨[], by simp⟩, rfl⟩
  | cons p rest ih =>
    obtain ⟨⟨t1, h1⟩, hi1⟩ := addOnePackage_fields env force st p
    obtain ⟨⟨t2, h2⟩, hi2⟩ := ih (addOnePackage env force st p)
    exact ⟨⟨t1 ++ t2, by simp [List.foldl_cons, h2, h1]⟩,
      by simp [List.foldl_cons, hi2, hi1]⟩

/-- Selection equation: `--all` set. -/
theorem selectPackages_eq_all (env : Env) (a : Args) (st : St) (h : a.all = true) :
    selectPackages env a st = addAllPackagesToList env true st := by
  simp [selectPackages, h]

/-- Selection equation: neither flag set. -/
theorem selectPackages_eq_default (env : Env) (a : Args) (st : St)
    (h1 : a.all = false) (h2 : a.package = none) :
    selectPackages env a st = addAllPackagesToList env false st := by
  simp [selectPackages, h1, h2]

/-- Selection equation: `--package ''` (empty string is falsy in Python,
so the default scan runs). -/
theorem selectPackages_eq_empty_name (env : Env) (a : Args) (st : St) (p : List Char)
    (h1 : a.all = false) (h2 : a.package = some p) (h3 : p.isEmpty = true) :
    selectPackages env a st = addAllPackagesToList env false st := by
  simp [selectPackages, h1, h2, h3]

/-- Selection equation: an explicit non-empty `--package` name is appended
verbatim, with no staleness query and no directory or control check. -/
theorem selectPackages_eq_explicit (env : Env) (a : Args) (st : St) (p : List Char)
    (h1 : a.all = false) (h2 : a.package = some p) (h3 : p.isEmpty = false) :
    selectPackages env a st = { st with packageList := st.packageList ++ [p] } := by
  simp [selectPackages, h1, h2, h3]

/-- `selectPackages` only appends to the selected list and leaves the
index flag alone. -/
theorem selectPackages_fields (env : Env) (args : Args) (st : St) :
    (∃ t, (selectPackages env args st).packageList = st.packageList ++ t) ∧
    (selectPackages env args st).indexRefreshed = st.indexRefreshed := by
  cases ha : args.all with
  | true =>
    rw [selectPackages_eq_all env args st ha]
    exact foldl_addOnePackage_fields env true _ st
  | false =>
    cases hp : args.package with
    | none =>
      rw [selectPackages_eq_default env args st ha hp]
      exact foldl_addOnePackage_fields env false _ st
    | some p =>
      cases he : p.isEmpty with
      | true =>
        rw [selectPackages_eq_empty_name env args st p ha hp he]
        exact foldl_addOnePackage_fields env false _ st
      | false =>
        rw [selectPackages_eq_explicit env args st p ha hp he]
        exact ⟨⟨[p], rfl⟩, rfl⟩

/-- `re.sub('.deb$', '', name)` removes exactly the last four characters
when they are some non-newline character followed by `deb`. -/
theorem stripDeb_suffix (s : List Char) (c : Char) (hc : c ≠ '\n') :
    stripDeb (s ++ [c, 'd', 'e', 'b']) = s := by
  have hrev : (s ++ [c, 'd', 'e', 'b']).reverse = 'b' :: 'e' :: 'd' :: c :: s.reverse := by
    simp
  have h1 : debTail (s ++ [c, 'd', 'e', 'b']).reverse = true := by
    rw [hrev]; simp [debTail, hc]
  unfold stripDeb
  rw [if_pos h1, hrev]
  simp

/-- `buildPackages` leaves the selected list and the index flag alone. -/
theorem buildPackages_fields (env : Env) (st : St) :
    ((buildPackages env st).1).packageList = st.packageList ∧
    ((buildPackages env st).1).indexRefreshed = st.indexRefreshed :=
  buildPackagesGo_fields env st.packageList st

/-- C2, amended.  When the pass completes without a fatal error, the
repository metadata is regenerated iff the accumulated `packageList` (the
list of selected packages) is non-empty.  Skipped packages stay in that
list, so a pass in which every selected package was skipped still rewrites
the index; only a pass that selected nothing leaves it untouched. -/
theorem c2_index_refresh_iff_selected (env : Env) (args : Args) (st0 : St)
    (h0 : st0.indexRefreshed = false) (hc : (doRunSteps env args st0).2 = true) :
    ((doRunSteps env args st0).1.indexRefreshed = true ↔
      (doRunSteps env args st0).1.packageList ≠ []) := by
  unfold doRunSteps at hc ⊢
  cases hb : buildPackages env (selectPackages env args st0) with
  | mk st2 c =>
    have h2 := buildPackages_fields env (selectPackages env args st0)
    rw [hb] at h2
    have hsel := selectPackages_fields env args st0
    cases c with
    | false =>
      simp only [hb] at hc
      exact absurd hc (by simp)
    | true =>
      simp only [hb]
      have hi2 : st2.indexRefreshed = false := h2.2.trans (hsel.2.trans h0)
      unfold refreshAptRepository
      by_cases hl : st2.packageList.length = 0
      · rw [if_pos hl]
        have hnil : st2.packageList = [] := List.length_eq_zero.mp hl
        rw [hi2, hnil]
        simp
      · rw [if_neg hl]
        constructor
        · intro _
          intro hn
          exact hl (by rw [hn]; rfl)
        · intro _
          rfl

/-- C2 witness: a concrete completed pass (explicit package, skipped)
satisfying the amended theorem's hypotheses. -/
theorem c2_witness :
    c2St.indexRefreshed = false ∧
    (doRunSteps c2Env ⟨false, some "a".toList⟩ c2St).2 = true ∧
    ((doRunSteps c2Env ⟨false, some "a".toList⟩ c2St).1.indexRefreshed = true ↔
      (doRunSteps c2Env ⟨false, some "a".toList⟩ c2St).1.packageList ≠ []) :=
  ⟨by decide, by decide,
    c2_index_refresh_iff_selected c2Env ⟨false, some "a".toList⟩ c2St
      (by decide) (by decide)⟩

/-- C3, amended.  Teardown happens on the normal exit paths only: when a
package's build reaches the `Built` terminal state the staging directory
has been removed, and on the `Skipped` path staging was never acquired
(the working directory is exactly what it was before); but when the
packaging tool fails, the staging directory is left in place
(see `c3_counterexample`). -/
theorem c3_teardown_on_normal_completion (env : Env) (p : List Char) (st : St) :
    ((buildPackage env p st).2 = BOutcome.builtOk →
      (buildPackage env p st).1.workingDir = none) ∧
    ((buildPackage env p st).2 = BOutcome.skipped →
      (buildPackage env p st).1.workingDir = st.workingDir) := by
  unfold buildPackage
  cases hc : incrementPackageVersion p st with
  | mk st1 res =>
    have h1 := incrementPackageVersion_fields p st
    rw [hc] at h1
    have hw1 : st1.workingDir = st.workingDir := h1.2.1
    cases res with
    | skipRaise => exact ⟨(fun h => nomatch h), (fun _ => hw1)⟩
    | fatalRaise => exact ⟨(fun h => nomatch h), (fun h => nomatch h)⟩
    | ok =>
      cases hb : buildDebFile env p (createWorkingDir env p st1) with
      | mk st2 ok2 =>
        cases ok2 with
        | false =>
          simp only [hb]
          exact ⟨(fun h => nomatch h), (fun h => nomatch h)⟩
        | true =>
          simp only [hb]
          exact ⟨(fun _ => rfl), (fun h => nomatch h)⟩

/-- C3 witness: the amended theorem applied on a concrete successful build
(working dir removed) and on a concrete skipped build (working dir
untouched). -/
theorem c3_witness :
    (buildPackage c3WEnv "a".toList c3St).1.workingDir = none ∧
    (buildPackage c3WEnv "missing".toList c3St).1.workingDir = c3St.workingDir :=
  ⟨(c3_teardown_on_normal_completion c3WEnv "a".toList c3St).1 (by decide),
   (c3_teardown_on_normal_completion c3WEnv "missing".toList c3St).2 (by decide)⟩

/-- C9.  `packageList` is the class attribute `Builder.packageList`:
selection only ever appends to it and nothing clears it, so when
`doRunSteps` is invoked a second time in the same process, the list the
second pass's `buildPackages` iterates still starts with everything the
first pass selected, followed by the newly selected names. -/
theorem c9_package_list_accumulates (env1 : Env) (a1 : Args) (st0 : St)
    (env2 : Env) (a2 : Args) :
    ∃ t, (selectPackages env2 a2 (doRunSteps env1 a1 st0).1).packageList =
      (selectPackages env1 a1 st0).packageList ++ t := by
  have hrun : (doRunSteps env1 a1 st0).1.packageList =
      (selectPackages env1 a1 st0).packageList := by
    unfold doRunSteps
    cases hb : buildPackages env1 (selectPackages env1 a1 st0) with
    | mk st2 c =>
      have h2 := buildPackages_fields env1 (selectPackages env1 a1 st0)
      rw [hb] at h2
      cases c with
      | false => simp only [hb]; exact h2.1
      | true =>
        simp only [hb]
        exact (refreshAptRepository_packageList st2).trans h2.1
  obtain ⟨t, ht⟩ := (selectPackages_fields env2 a2 (doRunSteps env1 a1 st0).1).1
  exact ⟨t, by rw [ht, hrun]⟩

theorem buildStartsOf_append (a b : List Ev) :
    buildStartsOf (a ++ b) = buildStartsOf a ++ buildStartsOf b := by
  unfold buildStartsOf
  exact List.filterMap_append a b _

theorem staleQueriesOf_append (a b : List Ev) :
    staleQueriesOf (a ++ b) = staleQueriesOf a ++ staleQueriesOf b := by
  unfold staleQueriesOf
  exact List.filterMap_append a b _

theorem buildStartsOf_built (t : List Ev) (p : List Char)
    (h : ∀ e ∈ t, e = Ev.built p) : buildStartsOf t = [] := by
  unfold buildStartsOf
  rw [List.filterMap_eq_nil_iff]
  intro e he
  rw [h e he]

theorem staleQueriesOf_built (t : List Ev) (p : List Char)
    (h : ∀ e ∈ t, e = Ev.built p) : staleQueriesOf t = [] := by
  unfold staleQueriesOf
  rw [List.filterMap_eq_nil_iff]
  intro e he
  rw [h e he]

/-- The build loop over a single selected name: the trace grows by one
`buildStart` for the rewritten name, possibly followed by its `built`
event, and by nothing else. -/
theorem buildPackagesGo_single (env : Env) (p : List Char) (st : St) :
    ∃ t, ((buildPackagesGo env [p] st).1).events =
        st.events ++ [Ev.buildStart (stripDeb p)] ++ t ∧
      ∀ e ∈ t, e = Ev.built (stripDeb p) := by
  unfold buildPackagesGo
  cases hb : buildPackage env (stripDeb p)
      { st with events := st.events ++ [Ev.buildStart (stripDeb p)] } with
  | mk st3 oc =>
    have hf := buildPackage_fields env (stripDeb p)
      { st with events := st.events ++ [Ev.buildStart (stripDeb p)] }
    rw [hb] at hf
    obtain ⟨_, _, t, hev, hto⟩ := hf
    cases oc with
    | fatal =>
      simp only [hb]
      exact ⟨t, hev, hto⟩
    | skipped =>
      simp only [hb]
      exact ⟨t, hev, hto⟩
    | builtOk =>
      simp only [hb]
      exact ⟨t, hev, hto⟩

/-- Trace of an explicit-package run: exactly one package is processed,
namely the selected name after the `re.sub('.deb$', '', ...)` rewrite,
and the staleness query is never invoked. -/
theorem explicit_run_trace (env : Env) (p : List Char) (st0 : St)
    (h1 : st0.packageList = []) (h2 : st0.events = []) (h3 : p.isEmpty = false) :
    buildStartsOf (doRunSteps env ⟨false, some p⟩ st0).1.events = [stripDeb p] ∧
    staleQueriesOf (doRunSteps env ⟨false, some p⟩ st0).1.events = [] := by
  have hsel : selectPackages env ⟨false, some p⟩ st0 = { st0 with packageList := [p] } := by
    rw [selectPackages_eq_explicit env ⟨false, some p⟩ st0 p rfl rfl h3, h1,
      List.nil_append]
  have hbp : buildPackages env { st0 with packageList := [p] } =
      buildPackagesGo env [p] { st0 with packageList := [p] } := rfl
  unfold doRunSteps
  rw [hsel, hbp]
  obtain ⟨t, hev0, hto⟩ := buildPackagesGo_single env p { st0 with packageList := [p] }
  cases hgo : buildPackagesGo env [p] { st0 with packageList := [p] } with
  | mk st3 c =>
    rw [hgo] at hev0
    have hev : st3.events = [] ++ [Ev.buildStart (stripDeb p)] ++ t := by
      rw [hev0]
      have he0 : ({ st0 with packageList := ([p] : List (List Char)) } : St).events = [] := h2
      rw [he0]
    have hpl : st3.packageList = [p] := by
      have := (buildPackagesGo_fields env [p] { st0 with packageList := [p] }).1
      rw [hgo] at this
      exact this
    have hstarts : buildStartsOf st3.events = [stripDeb p] := by
      rw [hev, buildStartsOf_append, buildStartsOf_built t (stripDeb p) hto]
      rfl
    have hqueries : staleQueriesOf st3.events = [] := by
      rw [hev, staleQueriesOf_append, staleQueriesOf_built t (stripDeb p) hto]
      rfl
    cases c with
    | false =>
      simp only [hgo]
      exact ⟨hstarts, hqueries⟩
    | true =>
      simp only [hgo]
      unfold refreshAptRepository
      have hlen : ¬st3.packageList.length = 0 := by rw [hpl]; simp
      rw [if_neg hlen]
      constructor
      · show buildStartsOf (st3.events ++ [Ev.refreshIndex]) = [stripDeb p]
        rw [buildStartsOf_append, hstarts]
        rfl
      · show staleQueriesOf (st3.events ++ [Ev.refreshIndex]) = []
        rw [staleQueriesOf_append, hqueries]
        rfl

/-- C8, amended.  For an explicit package name that the `.deb$` rewrite
leaves unchanged, the run processes exactly that package and never invokes
the staleness query (a name ending in `<any char>deb` is truncated first,
see `c8_counterexample`); and when both `--all` and `--package` are set,
`--all` takes precedence: the selection behaves exactly as if only
`--all` had been given. -/
theorem c8_explicit_and_precedence (env : Env) (p : List Char) (st0 : St)
    (h1 : st0.packageList = []) (h2 : st0.events = [])
    (h3 : p.isEmpty = false) (h4 : stripDeb p = p) :
    buildStartsOf (doRunSteps env ⟨false, some p⟩ st0).1.events = [p] ∧
    staleQueriesOf (doRunSteps env ⟨false, some p⟩ st0).1.events = [] ∧
    ∀ (env2 : Env) (q : List Char) (st2 : St),
      selectPackages env2 ⟨true, some q⟩ st2 = selectPackages env2 ⟨true, none⟩ st2 := by
  obtain ⟨ha, hb⟩ := explicit_run_trace env p st0 h1 h2 h3
  rw [h4] at ha
  exact ⟨ha, hb, fun env2 q st2 => rfl⟩

/-- C8 witness: the amended theorem applied to a concrete explicit-package
run (name `builder`, which the rewrite leaves unchanged). -/
theorem c8_witness :
    buildStartsOf (doRunSteps c8Env ⟨false, some "builder".toList⟩ c8St).1.events =
      ["builder".toList] ∧
    staleQueriesOf (doRunSteps c8Env ⟨false, some "builder".toList⟩ c8St).1.events = [] :=
  ⟨(c8_explicit_and_precedence c8Env "builder".toList c8St
      (by decide) (by decide) (by decide) (by decide)).1,
   (c8_explicit_and_precedence c8Env "builder".toList c8St
      (by decide) (by decide) (by decide) (by decide)).2.1⟩

/-- C10.  A selected name whose last four characters are any non-newline
character followed by `deb` is truncated by `re.sub('.deb$', '', package)`
before building: the build loop processes the truncated name (and hence
keys the version bump, staging and artifact paths on it), also when the
name came in through the explicit `--package` flag. -/
theorem c10_deb_suffix_stripped (env : Env) (s : List Char) (c : Char) (st0 : St)
    (hc : c ≠ '\n') (h1 : st0.packageList = []) (h2 : st0.events = []) :
    buildStartsOf
      (doRunSteps env ⟨false, some (s ++ [c, 'd', 'e', 'b'])⟩ st0).1.events = [s] := by
  have hne : (s ++ [c, 'd', 'e', 'b']).isEmpty = false := by
    cases s <;> rfl
  have := (explicit_run_trace env (s ++ [c, 'd', 'e', 'b']) st0 h1 h2 hne).1
  rw [stripDeb_suffix s c hc] at this
  exact this

/-- C10 witness: `--package foo.deb` processes package `foo`. -/
theorem c10_witness :
    buildStartsOf
      (doRunSteps c8Env ⟨false, some ("foo".toList ++ ['.', 'd', 'e', 'b'])⟩ c8St).1.events =
      ["foo".toList] :=
  c10_deb_suffix_stripped c8Env "foo".toList '.' c8St (by decide) (by decide) (by decide)

/-- C4, amended.  `createWorkingDir` overwrites pre-existing staging
entries whose paths collide with the current source tree and strips every
entry matching the exclusion list, but pre-existing entries at other paths
are not removed: the staged tree is the sanitized source copy merged over
the surviving pre-existing content, not exactly the sanitized copy
(see `c4_counterexample`). -/
theorem c4_staging_merge (env : Env) (p : List Char) (st : St)
    (pre : List (List (List Char) × Nat)) (hpre : st.workingDir = some pre) :
    (∀ e ∈ env.sourceFiles p, excludedPath e.1 = false →
        e ∈ ((createWorkingDir env p st).workingDir).getD []) ∧
    (∀ e ∈ pre, excludedPath e.1 = false →
        ((env.sourceFiles p).any fun s2 => s2.1 == e.1) = false →
        e ∈ ((createWorkingDir env p st).workingDir).getD []) ∧
    (∀ e ∈ ((createWorkingDir env p st).workingDir).getD [], excludedPath e.1 = false) := by
  unfold createWorkingDir overrideFiles
  rw [hpre]
  simp only [Option.getD_some]
  refine ⟨?_, ?_, ?_⟩
  · intro e he hex
    rw [List.mem_filter]
    exact ⟨List.mem_append_left _ he, by rw [hex]; rfl⟩
  · intro e he hex hcol
    rw [List.mem_filter]
    refine ⟨List.mem_append_right _ ?_, by rw [hex]; rfl⟩
    rw [List.mem_filter]
    exact ⟨he, by rw [hcol]; rfl⟩
  · intro e he
    rw [List.mem_filter] at he
    have h2 := he.2
    cases h : excludedPath e.1
    · rfl
    · rw [h] at h2
      exact absurd h2 (by decide)

/-- C4 witness: the amended theorem applied to the concrete leftover
staging entry `stale.txt`, which survives into the staged tree. -/
theorem c4_witness :
    (["stale.txt".toList], 7) ∈
      ((createWorkingDir c4Env "a".toList c4St).workingDir).getD [] :=
  (c4_staging_merge c4Env "a".toList c4St [(["stale.txt".toList], 7)] rfl).2.1
    (["stale.txt".toList], 7) (by decide) (by decide) (by decide)

theorem subMatch_nil : subMatch [] = none := rfl

/-- A `re.sub` match always spans at least the nine literal characters plus
one run character. -/
theorem subMatch_some_ge (l : List Char) (n : Nat) (h : subMatch l = some n) :
    10 ≤ n := by
  unfold subMatch at h
  by_cases hlit : litMatch versionLit l = true
  · rw [if_pos hlit] at h
    by_cases hlen : ((l.drop 9).takeWhile isVChar).length = 0
    · rw [if_pos hlen] at h
      exact absurd h (by simp)
    · rw [if_neg hlen] at h
      have := Option.some.inj h
      omega
  · rw [if_neg hlit] at h
    exact absurd h (by simp)

/-- The fuel in `subAllF` is irrelevant once it covers the input length. -/
theorem subAllF_fuel (repl : List Char) :
    ∀ f g l, l.length ≤ f → l.length ≤ g → subAllF repl f l = subAllF repl g l := by
  intro f
  induction f with
  | zero =>
    intro g l hf _
    have hl : l = [] := List.eq_nil_of_length_eq_zero (Nat.le_zero.mp hf)
    subst hl
    cases g <;> rfl
  | succ f ih =>
    intro g l hf hg
    cases l with
    | nil => cases g <;> rfl
    | cons c cs =>
      cases g with
      | zero => exact absurd hg (by simp)
      | succ g2 =>
        show subAllF repl (f + 1) (c :: cs) = subAllF repl (g2 + 1) (c :: cs)
        unfold subAllF
        cases hm : subMatch (c :: cs) with
        | none =>
          have h1 : cs.length ≤ f := by
            have := hf
            simp at this
            omega
          have h2 : cs.length ≤ g2 := by
            have := hg
            simp at this
            omega
          show c :: subAllF repl f cs = c :: subAllF repl g2 cs
          rw [ih g2 cs h1 h2]
        | some n =>
          have hn := subMatch_some_ge _ _ hm
          have h1 : ((c :: cs).drop n).length ≤ f := by
            rw [List.length_drop]
            simp at hf ⊢
            omega
          have h2 : ((c :: cs).drop n).length ≤ g2 := by
            rw [List.length_drop]
            simp at hg ⊢
            omega
          show repl ++ subAllF repl f ((c :: cs).drop n) =
            repl ++ subAllF repl g2 ((c :: cs).drop n)
          rw [ih g2 _ h1 h2]

/-- One scanning step of `re.sub` at a non-matching position. -/
theorem subAll_cons_none (repl : List Char) (c : Char) (cs : List Char)
    (h : subMatch (c :: cs) = none) :
    subAll repl (c :: cs) = c :: subAll repl cs := by
  have he : subAll repl (c :: cs) =
      (match subMatch (c :: cs) with
       | some n => repl ++ subAllF repl cs.length ((c :: cs).drop n)
       | none => c :: subAllF repl cs.length cs) := rfl
  rw [he, h]
  rfl

/-- One scanning step of `re.sub` at a matching position: emit the
replacement and resume after the matched span. -/
theorem subAll_cons_some (repl l : List Char) (n : Nat) (h : subMatch l = some n) :
    subAll repl l = repl ++ subAll repl (l.drop n) := by
  cases l with
  | nil => rw [subMatch_nil] at h; exact absurd h (by simp)
  | cons c cs =>
    have hn := subMatch_some_ge _ _ h
    have he : subAll repl (c :: cs) =
        (match subMatch (c :: cs) with
         | some n => repl ++ subAllF repl cs.length ((c :: cs).drop n)
         | none => c :: subAllF repl cs.length cs) := rfl
    rw [he, h]
    show repl ++ subAllF repl cs.length ((c :: cs).drop n) =
      repl ++ subAll repl ((c :: cs).drop n)
    congr 1
    apply subAllF_fuel
    · rw [List.length_drop]
      simp
      omega
    · exact Nat.le_refl _

/-- `re.sub` copies a match-free prefix verbatim. -/
theorem subAll_skip_clean (repl : List Char) :
    ∀ P rest, noMatchWithin P rest = true →
      subAll repl (P ++ rest) = P ++ subAll repl rest := by
  intro P
  induction P with
  | nil => intro rest _; rfl
  | cons c ps ih =>
    intro rest h
    unfold noMatchWithin at h
    rw [Bool.and_eq_true] at h
    have h1 : subMatch (c :: (ps ++ rest)) = none := Option.isNone_iff_eq_none.mp h.1
    show subAll repl (c :: (ps ++ rest)) = c :: (ps ++ subAll repl rest)
    rw [subAll_cons_none repl _ _ h1, ih rest h.2]

/-- `re.sub` leaves a match-free text unchanged. -/
theorem subAll_clean (repl : List Char) (Q : List Char)
    (h : noMatchWithin Q [] = true) : subAll repl Q = Q := by
  have h2 := subAll_skip_clean repl Q [] h
  rw [List.append_nil] at h2
  rw [h2, show subAll repl [] = [] from rfl, List.append_nil]

theorem litMatch_self_append : ∀ A B : List Char, litMatch A (A ++ B) = true := by
  intro A
  induction A with
  | nil => intro B; rfl
  | cons a as ih =>
    intro B
    show (a == a && litMatch as (as ++ B)) = true
    rw [ih B]
    simp

theorem vchar_of_digit (c : Char) (h : c.isDigit = true) : isVChar c = true := by
  unfold isVChar
  rw [h]
  rfl

theorem takeWhile_all {p : Char → Bool} (l : List Char)
    (h : ∀ c ∈ l, p c = true) : l.takeWhile p = l := by
  have h2 := @List.takeWhile_append_of_pos Char p l [] h
  simpa using h2

/-- The maximal `[\d\.]` run at the version position is exactly the version
characters. -/
theorem run_at_version (m s Q : List Char)
    (hmv : ∀ c ∈ m, isVChar c = true) (hsd : ∀ c ∈ s, c.isDigit = true)
    (hq : headNotV Q = true) :
    ((m ++ '.' :: s) ++ Q).takeWhile isVChar = m ++ '.' :: s := by
  have hall : ∀ c ∈ m ++ '.' :: s, isVChar c = true := by
    intro c hc
    rw [List.mem_append] at hc
    cases hc with
    | inl h2 => exact hmv c h2
    | inr h2 =>
      cases List.mem_cons.mp h2 with
      | inl h3 => rw [h3]; rfl
      | inr h3 => exact vchar_of_digit c (hsd c h3)
  rw [List.takeWhile_append_of_pos hall]
  cases Q with
  | nil => simp
  | cons q qs =>
    have hnq : ¬isVChar q = true := by
      simp [headNotV] at hq
      rw [hq]
      simp
    rw [List.takeWhile_cons_of_neg hnq, List.append_nil]

/-- The split point right after `m`'s dot is valid for the group match. -/
theorem okSplit_at (m s : List Char) (hm : m ≠ []) (hs : s ≠ [])
    (hsd : ∀ c ∈ s, c.isDigit = true) :
    okSplit (m ++ '.' :: s) (m.length + 1) = true := by
  unfold okSplit
  rw [Nat.add_sub_cancel, List.drop_left]
  cases s with
  | nil => exact absurd rfl hs
  | cons d s2 =>
    have hd : d.isDigit = true := hsd d (by simp)
    have hm1 : 1 ≤ m.length := by
      cases m with
      | nil => exact absurd rfl hm
      | cons _ _ => simp
    have h2 : 2 ≤ m.length + 1 := by omega
    simp [hd, h2]

/-- No later split point works: every run character after the version's
last dot is a digit, never a dot followed by a digit. -/
theorem okSplit_high (m s : List Char) (hsd : ∀ c ∈ s, c.isDigit = true) :
    ∀ j, m.length + 1 < j → okSplit (m ++ '.' :: s) j = false := by
  intro j hj
  unfold okSplit
  have hshape : m ++ '.' :: s = (m ++ ['.']) ++ s := List.append_cons m '.' s
  have hlen : (m ++ ['.']).length = m.length + 1 := by simp
  have hk : j - 1 = (m ++ ['.']).length + (j - 1 - (m.length + 1)) := by
    rw [hlen]
    omega
  have hdrop : (m ++ '.' :: s).drop (j - 1) = s.drop (j - 1 - (m.length + 1)) := by
    conv_lhs => rw [hshape, hk]
    rw [List.drop_append]
  rw [hdrop]
  cases hs2 : s.drop (j - 1 - (m.length + 1)) with
  | nil => simp
  | cons c rest =>
    cases rest with
    | nil => simp
    | cons d rest2 =>
      have hc : c ∈ s := by
        have hmem : c ∈ s.drop (j - 1 - (m.length + 1)) := by
          rw [hs2]
          simp
        exact List.drop_subset _ _ hmem
      have hcd : c.isDigit = true := hsd c hc
      have hcne : (c == '.') = false := by
        cases hcc : c == '.'
        · rfl
        · have hceq : c = '.' := eq_of_beq hcc
          rw [hceq] at hcd
          exact absurd hcd (by decide)
      simp [hcne]

/-- Greedy backtracking from any high starting point lands on the valid
split `j`. -/
theorem findJFrom_eq (run : List Char) (j : Nat) (hok : okSplit run j = true)
    (hhigh : ∀ j2, j < j2 → okSplit run j2 = false) :
    ∀ k, j ≤ k → findJFrom run k = some j := by
  intro k
  induction k with
  | zero =>
    intro hjk
    have hj0 : j = 0 := Nat.le_zero.mp hjk
    subst hj0
    unfold okSplit at hok
    exact absurd hok (by simp)
  | succ k ih =>
    intro hjk
    unfold findJFrom
    by_cases he : j = k + 1
    · subst he
      rw [if_pos hok]
    · have hlt : j ≤ k := by omega
      have hfalse : okSplit run (k + 1) = false := hhigh (k + 1) (by omega)
      rw [if_neg (by rw [hfalse]; exact fun hcon => Bool.noConfusion hcon)]
      exact ih hlt

/-- The regex engine splits the version run right after its last dot. -/
theorem findJ_version (m s : List Char) (hm : m ≠ []) (hs : s ≠ [])
    (hsd : ∀ c ∈ s, c.isDigit = true) :
    findJ (m ++ '.' :: s) = some (m.length + 1) := by
  unfold findJ
  apply findJFrom_eq _ _ (okSplit_at m s hm hs hsd)
    (fun j2 hj2 => okSplit_high m s hsd j2 hj2)
  simp only [List.length_append, List.length_cons]
  omega

/-- The search pattern's groups at the version position. -/
theorem searchAt_version (m s Q : List Char)
    (hm : m ≠ []) (hmv : ∀ c ∈ m, isVChar c = true)
    (hs : s ≠ []) (hsd : ∀ c ∈ s, c.isDigit = true)
    (hq : headNotV Q = true) :
    searchAt (versionLit ++ ((m ++ '.' :: s) ++ Q)) = some (m ++ ['.'], s) := by
  unfold searchAt
  rw [if_pos (litMatch_self_append versionLit _)]
  rw [List.drop_left' (show versionLit.length = 9 from rfl)]
  rw [run_at_version m s Q hmv hsd hq]
  rw [findJ_version m s hm hs hsd]
  show some ((m ++ '.' :: s).take (m.length + 1),
      ((m ++ '.' :: s).drop (m.length + 1)).takeWhile Char.isDigit) =
    some (m ++ ['.'], s)
  have htake : (m ++ '.' :: s).take (m.length + 1) = m ++ ['.'] := by
    rw [List.append_cons m '.' s]
    exact List.take_left' (by simp)
  have hdrop : (m ++ '.' :: s).drop (m.length + 1) = s := by
    rw [List.append_cons m '.' s]
    exact List.drop_left' (by simp)
  rw [htake, hdrop, takeWhile_all s hsd]

/-- The `re.sub` pattern's match length at the version position. -/
theorem subMatch_version (m s Q : List Char)
    (hmv : ∀ c ∈ m, isVChar c = true) (hsd : ∀ c ∈ s, c.isDigit = true)
    (hq : headNotV Q = true) :
    subMatch (versionLit ++ ((m ++ '.' :: s) ++ Q)) =
      some (9 + (m ++ '.' :: s).length) := by
  unfold subMatch
  rw [if_pos (litMatch_self_append versionLit _)]
  rw [List.drop_left' (show versionLit.length = 9 from rfl)]
  rw [run_at_version m s Q hmv hsd hq]
  rw [if_neg (by simp)]

theorem searchAt_none_of_subMatch_none (l : List Char) (h : subMatch l = none) :
    searchAt l = none := by
  unfold subMatch at h
  unfold searchAt
  by_cases hlit : litMatch versionLit l = true
  · rw [if_pos hlit] at h ⊢
    by_cases hlen : ((l.drop 9).takeWhile isVChar).length = 0
    · have hnil : (l.drop 9).takeWhile isVChar = [] :=
        List.eq_nil_of_length_eq_zero hlen
      rw [hnil]
      rfl
    · rw [if_neg hlen] at h
      exact absurd h (by simp)
  · rw [if_neg hlit]

theorem search_cons_some (c : Char) (cs : List Char) (g : List Char × List Char)
    (h : searchAt (c :: cs) = some g) : search (c :: cs) = some g := by
  have he : search (c :: cs) =
      (match searchAt (c :: cs) with
       | some g2 => some g2
       | none => search cs) := rfl
  rw [he, h]

theorem search_cons_none (c : Char) (cs : List Char)
    (h : searchAt (c :: cs) = none) : search (c :: cs) = search cs := by
  have he : search (c :: cs) =
      (match searchAt (c :: cs) with
       | some g2 => some g2
       | none => search cs) := rfl
  rw [he, h]

/-- `re.search` skips a match-free prefix. -/
theorem search_skip_clean :
    ∀ P rest, noMatchWithin P rest = true → search (P ++ rest) = search rest := by
  intro P
  induction P with
  | nil => intro rest _; rfl
  | cons c ps ih =>
    intro rest h
    unfold noMatchWithin at h
    rw [Bool.and_eq_true] at h
    have h1 : subMatch (c :: (ps ++ rest)) = none := Option.isNone_iff_eq_none.mp h.1
    show search (c :: (ps ++ rest)) = search rest
    rw [search_cons_none c _ (searchAt_none_of_subMatch_none _ h1)]
    exact ih rest h.2

/-- `re.search` over the whole content finds the version groups. -/
theorem search_version (P m s Q : List Char)
    (hm : m ≠ []) (hmv : ∀ c ∈ m, isVChar c = true)
    (hs : s ≠ []) (hsd : ∀ c ∈ s, c.isDigit = true)
    (hq : headNotV Q = true)
    (hP : noMatchWithin P (versionLit ++ ((m ++ '.' :: s) ++ Q)) = true) :
    search (P ++ (versionLit ++ ((m ++ '.' :: s) ++ Q))) = some (m ++ ['.'], s) := by
  rw [search_skip_clean P _ hP]
  exact search_cons_some _ _ _ (searchAt_version m s Q hm hmv hs hsd hq)

/-- `re.sub` over the whole content: the clean prefix is copied, the match
is replaced, and the clean tail is copied. -/
theorem subAll_version (repl P m s Q : List Char)
    (hmv : ∀ c ∈ m, isVChar c = true) (hsd : ∀ c ∈ s, c.isDigit = true)
    (hq : headNotV Q = true)
    (hP : noMatchWithin P (versionLit ++ ((m ++ '.' :: s) ++ Q)) = true)
    (hQ : noMatchWithin Q [] = true) :
    subAll repl (P ++ (versionLit ++ ((m ++ '.' :: s) ++ Q))) = P ++ (repl ++ Q) := by
  rw [subAll_skip_clean repl P _ hP]
  rw [subAll_cons_some repl _ _ (subMatch_version m s Q hmv hsd hq)]
  have hdrop : (versionLit ++ ((m ++ '.' :: s) ++ Q)).drop (9 + (m ++ '.' :: s).length) = Q := by
    have hshape : versionLit ++ ((m ++ '.' :: s) ++ Q) =
        (versionLit ++ (m ++ '.' :: s)) ++ Q := by
      simp [List.append_assoc]
    rw [hshape]
    apply List.drop_left'
    simp [versionLit]
    omega
  rw [hdrop, subAll_clean repl Q hQ]

/-- Full behaviour of `incrementPackageVersion`'s text transformation on a
content with a single version occurrence: groups, new version and the
rewritten content, with the surrounding bytes `P` and `Q` untouched. -/
theorem bump_decomp (P m s Q : List Char)
    (hm : m ≠ []) (hmv : ∀ c ∈ m, isVChar c = true)
    (hs : s ≠ []) (hsd : ∀ c ∈ s, c.isDigit = true)
    (hq : headNotV Q = true)
    (hP : noMatchWithin P (versionLit ++ ((m ++ '.' :: s) ++ Q)) = true)
    (hQ : noMatchWithin Q [] = true) :
    bump (P ++ (versionLit ++ ((m ++ '.' :: s) ++ Q))) =
      some ((m ++ ['.']) ++ s,
        (m ++ ['.']) ++ natDigits (parseNat s + 1),
        P ++ ((versionLit ++ ((m ++ ['.']) ++ natDigits (parseNat s + 1))) ++ Q)) := by
  unfold bump
  rw [search_version P m s Q hm hmv hs hsd hq hP]
  show some ((m ++ ['.']) ++ s,
      (m ++ ['.']) ++ natDigits (parseNat s + 1),
      subAll (versionLit ++ ((m ++ ['.']) ++ natDigits (parseNat s + 1)))
        (P ++ (versionLit ++ ((m ++ '.' :: s) ++ Q)))) = _
  rw [subAll_version _ P m s Q hmv hsd hq hP hQ]

/-- `litMatch` only inspects the first `pat.length` characters. -/
theorem litMatch_ext : ∀ pat A X Y : List Char, pat.length ≤ A.length →
    litMatch pat (A ++ X) = litMatch pat (A ++ Y) := by
  intro pat
  induction pat with
  | nil => intro A X Y _; rfl
  | cons p ps ih =>
    intro A X Y h
    cases A with
    | nil => simp at h
    | cons a as =>
      show (p == a && litMatch ps (as ++ X)) = (p == a && litMatch ps (as ++ Y))
      rw [ih as X Y (by simpa using h)]

/-- Whether the `re.sub` pattern matches at a position is determined by the
first ten characters there. -/
theorem subMatch_isNone_ext (A X Y : List Char) (hA : 10 ≤ A.length) :
    (subMatch (A ++ X)).isNone = (subMatch (A ++ Y)).isNone := by
  unfold subMatch
  have hlit : litMatch versionLit (A ++ X) = litMatch versionLit (A ++ Y) :=
    litMatch_ext versionLit A X Y (by simp [versionLit]; omega)
  rw [hlit]
  by_cases hl : litMatch versionLit (A ++ Y) = true
  · rw [if_pos hl, if_pos hl]
    obtain ⟨c, rest, hcr⟩ : ∃ c rest, A.drop 9 = c :: rest := by
      cases hd : A.drop 9 with
      | nil =>
        exfalso
        have := congrArg List.length hd
        rw [List.length_drop] at this
        simp at this
        omega
      | cons c rest => exact ⟨c, rest, rfl⟩
    have e1 : (A ++ X).drop 9 = c :: (rest ++ X) := by
      rw [List.drop_append_of_le_length (by omega), hcr]
      rfl
    have e2 : (A ++ Y).drop 9 = c :: (rest ++ Y) := by
      rw [List.drop_append_of_le_length (by omega), hcr]
      rfl
    rw [e1, e2]
    by_cases hc : isVChar c = true
    · rw [List.takeWhile_cons_of_pos hc, List.takeWhile_cons_of_pos hc]
      simp
    · rw [List.takeWhile_cons_of_neg hc, List.takeWhile_cons_of_neg hc]
  · rw [if_neg hl, if_neg hl]

/-- Whether an occurrence starts inside `P` does not depend on what follows
the nine literal characters after `P`. -/
theorem noMatchWithin_ext : ∀ P X Y : List Char,
    noMatchWithin P (versionLit ++ X) = noMatchWithin P (versionLit ++ Y) := by
  intro P
  induction P with
  | nil => intro X Y; rfl
  | cons c ps ih =>
    intro X Y
    unfold noMatchWithin
    rw [ih X Y]
    have e1 : c :: (ps ++ (versionLit ++ X)) = (c :: (ps ++ versionLit)) ++ X := by
      simp
    have e2 : c :: (ps ++ (versionLit ++ Y)) = (c :: (ps ++ versionLit)) ++ Y := by
      simp
    rw [e1, e2, subMatch_isNone_ext _ X Y
      (by simp only [versionLit, List.length_cons, List.length_append, List.length_nil]; omega)]

theorem digitChar_isDigit : ∀ k < 10, (digitChar k).isDigit = true := by decide

theorem digitChar_toNat : ∀ k < 10, (digitChar k).toNat = 48 + k := by decide

theorem natDigits_ne_nil (n : Nat) : natDigits n ≠ [] := by
  unfold natDigits natDigitsF
  by_cases h : n < 10
  · rw [if_pos h]
    simp
  · rw [if_neg h]
    simp

theorem natDigitsF_digits : ∀ f n, ∀ c ∈ natDigitsF f n, c.isDigit = true := by
  intro f
  induction f with
  | zero => intro n c hc; simp [natDigitsF] at hc
  | succ f ih =>
    intro n c hc
    unfold natDigitsF at hc
    by_cases h : n < 10
    · rw [if_pos h] at hc
      simp at hc
      rw [hc]
      exact digitChar_isDigit n h
    · rw [if_neg h] at hc
      rw [List.mem_append] at hc
      cases hc with
      | inl h2 => exact ih (n / 10) c h2
      | inr h2 =>
        simp at h2
        rw [h2]
        exact digitChar_isDigit _ (Nat.mod_lt _ (by omega))

theorem natDigits_digits (n : Nat) : ∀ c ∈ natDigits n, c.isDigit = true :=
  natDigitsF_digits (n + 1) n

theorem parseNat_append_digit (A : List Char) (c : Char) :
    parseNat (A ++ [c]) = (parseNat A) * 10 + (c.toNat - 48) := by
  unfold parseNat
  rw [List.foldl_append]
  rfl

/-- Python `int` inverts the decimal printer. -/
theorem parseNat_natDigitsF : ∀ f n, n < 10 ^ f → parseNat (natDigitsF f n) = n := by
  intro f
  induction f with
  | zero =>
    intro n h
    simp at h
    rw [h]
    rfl
  | succ f ih =>
    intro n h
    unfold natDigitsF
    by_cases h10 : n < 10
    · rw [if_pos h10]
      rw [show parseNat [digitChar n] = 0 * 10 + ((digitChar n).toNat - 48) from rfl]
      rw [digitChar_toNat n h10]
      omega
    · rw [if_neg h10]
      rw [parseNat_append_digit]
      have hdiv : n / 10 < 10 ^ f := by
        rw [Nat.div_lt_iff_lt_mul (by norm_num)]
        calc n < 10 ^ (f + 1) := h
          _ = 10 ^ f * 10 := by rw [pow_succ]
      rw [ih _ hdiv, digitChar_toNat _ (Nat.mod_lt _ (by omega))]
      omega

theorem parseNat_natDigits (n : Nat) : parseNat (natDigits n) = n :=
  parseNat_natDigitsF (n + 1) n
    (lt_of_lt_of_le (Nat.lt_pow_self (by norm_num) n)
      (Nat.pow_le_pow_right (by norm_num) (Nat.le_succ n)))

/-- C5, amended.  On content with exactly one occurrence of the version
pattern (no other occurrence starts in the prefix `P` or the suffix `Q`),
a successful bump rewrites only that occurrence: the output is byte
identical to the input on `P` and `Q` and replaces the version text with
the bumped one.  When further occurrences exist, `re.sub` rewrites them
all (see `c5_counterexample`). -/
theorem c5_single_occurrence_frame (P m s Q : List Char)
    (hm : m ≠ []) (hmv : ∀ c ∈ m, isVChar c = true)
    (hs : s ≠ []) (hsd : ∀ c ∈ s, c.isDigit = true)
    (hq : headNotV Q = true)
    (hP : noMatchWithin P (versionLit ++ ((m ++ '.' :: s) ++ Q)) = true)
    (hQ : noMatchWithin Q [] = true) :
    bump (P ++ (versionLit ++ ((m ++ '.' :: s) ++ Q))) =
      some ((m ++ ['.']) ++ s,
        (m ++ ['.']) ++ natDigits (parseNat s + 1),
        P ++ ((versionLit ++ ((m ++ ['.']) ++ natDigits (parseNat s + 1))) ++ Q)) :=
  bump_decomp P m s Q hm hmv hs hsd hq hP hQ

/-- C5 witness: a concrete control file with one version line is rewritten
with the prefix and suffix bytes intact. -/
theorem c5_witness :
    bump ("Package: x\n".toList ++
        (versionLit ++ (("1.2".toList ++ '.' :: "3".toList) ++
          "\nArchitecture: all\n".toList))) =
      some (("1.2".toList ++ ['.']) ++ "3".toList,
        ("1.2".toList ++ ['.']) ++ natDigits (parseNat "3".toList + 1),
        "Package: x\n".toList ++
          ((versionLit ++ (("1.2".toList ++ ['.']) ++
            natDigits (parseNat "3".toList + 1))) ++ "\nArchitecture: all\n".toList)) :=
  c5_single_occurrence_frame "Package: x\n".toList "1.2".toList "3".toList
    "\nArchitecture: all\n".toList
    (by decide) (by decide) (by decide) (by decide) (by decide) (by decide) (by decide)

/-- C6.  The bump increments exactly the patch component: on a version
`m.s` (major/minor part `m`, patch digits `s`) it returns the old version
`m.s` and the new version `m.(s+1)`, leaving `m` untouched; and bumping
the resulting content again yields `m.(s+2)` — two successive bumps are
two sequential `+1` patch increments, never skipping or repeating. -/
theorem c6_patch_increment (P m s Q : List Char)
    (hm : m ≠ []) (hmv : ∀ c ∈ m, isVChar c = true)
    (hs : s ≠ []) (hsd : ∀ c ∈ s, c.isDigit = true)
    (hq : headNotV Q = true)
    (hP : noMatchWithin P (versionLit ++ ((m ++ '.' :: s) ++ Q)) = true)
    (hQ : noMatchWithin Q [] = true) :
    bump (P ++ (versionLit ++ ((m ++ '.' :: s) ++ Q))) =
      some ((m ++ ['.']) ++ s,
        (m ++ ['.']) ++ natDigits (parseNat s + 1),
        P ++ ((versionLit ++ ((m ++ ['.']) ++ natDigits (parseNat s + 1))) ++ Q)) ∧
    bump (P ++ ((versionLit ++ ((m ++ ['.']) ++ natDigits (parseNat s + 1))) ++ Q)) =
      some ((m ++ ['.']) ++ natDigits (parseNat s + 1),
        (m ++ ['.']) ++ natDigits (parseNat s + 2),
        P ++ ((versionLit ++ ((m ++ ['.']) ++ natDigits (parseNat s + 2))) ++ Q)) := by
  constructor
  · exact bump_decomp P m s Q hm hmv hs hsd hq hP hQ
  · have hshape : P ++ ((versionLit ++ ((m ++ ['.']) ++ natDigits (parseNat s + 1))) ++ Q) =
        P ++ (versionLit ++ ((m ++ '.' :: natDigits (parseNat s + 1)) ++ Q)) := by
      simp [List.append_assoc]
    rw [hshape]
    have hP2 : noMatchWithin P
        (versionLit ++ ((m ++ '.' :: natDigits (parseNat s + 1)) ++ Q)) = true := by
      rw [noMatchWithin_ext P ((m ++ '.' :: natDigits (parseNat s + 1)) ++ Q)
        ((m ++ '.' :: s) ++ Q)]
      exact hP
    have h2 := bump_decomp P m (natDigits (parseNat s + 1)) Q hm hmv
      (natDigits_ne_nil _) (natDigits_digits _) hq hP2 hQ
    rw [h2, parseNat_natDigits]

/-- C6 witness: the spec's own example — bumping `Version: 1.2.9` yields
old `1.2.9`, new `1.2.10`, and bumping the result yields `1.2.11`. -/
theorem c6_witness :
    bump "Version: 1.2.9".toList =
      some ("1.2.9".toList, "1.2.10".toList, "Version: 1.2.10".toList) ∧
    bump "Version: 1.2.10".toList =
      some ("1.2.10".toList, "1.2.11".toList, "Version: 1.2.11".toList) := by
  have h := c6_patch_increment [] "1.2".toList "9".toList []
    (by decide) (by decide) (by decide) (by decide) (by decide) (by decide) (by decide)
  constructor
  · have h1 := h.1
    have e : ([] : List Char) ++
        (versionLit ++ (("1.2".toList ++ '.' :: "9".toList) ++ [])) =
        "Version: 1.2.9".toList := by decide
    rw [e] at h1
    exact h1.trans (by decide)
  · have h2 := h.2
    have e : ([] : List Char) ++
        ((versionLit ++ (("1.2".toList ++ ['.']) ++
          natDigits (parseNat "9".toList + 1))) ++ []) = "Version: 1.2.10".toList := by
      decide
    rw [e] at h2
    exact h2.trans (by decide)

end Builder
